import Mathlib

/-!
Verification of the polski-ls core against its specification.

The Rust sources `src/pos_conv.rs`, `src/dictionary.rs` and `src/backend.rs`
are shallowly embedded below: documents are `List Char` (Rust `Vec<char>` of
Unicode scalar values), machine integers (`usize`, `u8`, `u32`) become `Nat`
(no arithmetic here ever wraps for the inputs the functions are defined on;
Rust's `saturating_sub` becomes truncated `Nat` subtraction), and fallible
operations return `Except`.  File-system effects in `add_user_word` are
modelled by a boolean oracle saying whether the write steps succeed.
-/

namespace PolskiLs

/-! ## Character helpers (Rust std semantics used by the sources) -/

/-- Rust `char::len_utf16`: codepoints below `0x10000` take one UTF-16 code
unit, the rest take two. -/
def charUtf16Len (c : Char) : Nat :=
  if c.toNat < 0x10000 then 1 else 2

/-- Total UTF-16 length of a codepoint sequence. -/
def utf16Length (l : List Char) : Nat :=
  (l.map charUtf16Len).sum

/-- Rust `char::to_ascii_lowercase`: maps `A`..`Z` to `a`..`z` and leaves
every other codepoint unchanged. -/
def toAsciiLower (c : Char) : Char :=
  if 65 ≤ c.toNat ∧ c.toNat ≤ 90 then Char.ofNat (c.toNat + 32) else c

/-- Rust `char::eq_ignore_ascii_case`: equality after ASCII lowercasing. -/
def eqIgnoreAsciiCase (x y : Char) : Bool :=
  toAsciiLower x == toAsciiLower y

/-- Rust `char::is_ascii_digit`. -/
def is_ascii_digit (c : Char) : Bool :=
  decide (48 ≤ c.toNat) && decide (c.toNat ≤ 57)

/-- Rust `char::to_lowercase`, which yields a sequence of codepoints.  The
full Unicode special-casing table is external to this repository; the mapping
is embedded here on the repertoire the program works with (ASCII letters and
the Polish diacritic letters), every other codepoint mapping to itself. -/
def to_lowercase (c : Char) : List Char :=
  if 65 ≤ c.toNat ∧ c.toNat ≤ 90 then [Char.ofNat (c.toNat + 32)]
  else if c = 'Ą' then ['ą']
  else if c = 'Ć' then ['ć']
  else if c = 'Ę' then ['ę']
  else if c = 'Ł' then ['ł']
  else if c = 'Ń' then ['ń']
  else if c = 'Ó' then ['ó']
  else if c = 'Ś' then ['ś']
  else if c = 'Ź' then ['ź']
  else if c = 'Ż' then ['ż']
  else [c]

/-! ## `src/pos_conv.rs`: the line index -/

/-- LSP `Position`: zero-based line and column. -/
structure Position where
  line : Nat
  character : Nat
deriving DecidableEq

namespace LineIndex

/-- `LineIndex::new`: one forward scan recording the offset after every
newline as the start of the next line (`line_starts[0] = 0`). -/
def new (source : List Char) : List Nat :=
  source.enum.foldl
    (fun line_starts p => if p.2 = '\n' then line_starts ++ [p.1 + 1] else line_starts)
    [0]

/-- Rust `slice::binary_search` on a sorted slice: `.ok` with the matching
index when the key is present, otherwise `.error` with the insertion point.
(`line_starts` is strictly increasing, so the matching index is the number of
elements below the key.) -/
def binarySearch (xs : List Nat) (key : Nat) : Except Nat Nat :=
  let insertion := xs.countP (fun s => decide (s < key))
  if xs.contains key then .ok insertion else .error insertion

/-- `LineIndex::index_to_position`: binary-search the containing line, then
count the column in UTF-16 code units from the line start to the index. -/
def index_to_position (source : List Char) (line_starts : List Nat) (index : Nat) : Position :=
  let line := match binarySearch line_starts index with
    | .ok line => line
    | .error line => line - 1
  let line_start := (line_starts.get? line).getD 0
  let cols := utf16Length ((source.take (min index source.length)).drop line_start)
  ⟨line, cols⟩

/-- `LineIndex::position_to_index`: direct lookup of the line start; a line
past the end of the document yields `source.len().saturating_sub(1)`; a
column past the end of the line clamps to the line end. -/
def position_to_index (source : List Char) (line_starts : List Nat) (pos : Position) : Nat :=
  match line_starts.get? pos.line with
  | none => source.length - 1
  | some line_start =>
    let line_end := (line_starts.get? (pos.line + 1)).getD source.length
    let target_line := (source.take line_end).drop line_start
    if target_line.length < pos.character then line_end
    else line_start + pos.character

end LineIndex

/-! ## `src/dictionary.rs`: the dictionary store and the edit distance -/

/-- `FuzzyMatchResult`: matched word, its edit distance and commonality. -/
structure FuzzyMatchResult where
  word : List Char
  edit_distance : Nat
  is_common : Bool
deriving DecidableEq

/-- `SimpleDictionary`: insertion-ordered word list with commonality flags,
plus the optional path of the user dictionary file (the path itself is only
compared against `None`, so it is kept abstract as a `String`). -/
structure SimpleDictionary where
  words : List (List Char × Bool)
  user_dict_path : Option String
deriving DecidableEq

namespace SimpleDictionary

/-- `SimpleDictionary::new`. -/
def new : SimpleDictionary := ⟨[], none⟩

/-- `SimpleDictionary::add_word`: unconditionally pushes an entry. -/
def add_word (d : SimpleDictionary) (word : List Char) (is_common : Bool) : SimpleDictionary :=
  { d with words := d.words ++ [(word, is_common)] }

/-- `Dictionary::contains` for `SimpleDictionary`: some stored entry has the
same length and every codepoint pair compares equal after `to_lowercase`. -/
def contains (d : SimpleDictionary) (word : List Char) : Bool :=
  d.words.any fun dict_word =>
    dict_word.1.length == word.length &&
      (dict_word.1.zip word).all fun p => to_lowercase p.1 == to_lowercase p.2

/-- `SimpleDictionary::add_user_word`: a word already present is a no-op
success; otherwise the word is pushed to the in-memory list (flagged
uncommon) and then persisted.  Persistence to the user dictionary file is
I/O owned outside this core; `fs_ok` models whether those writes succeed,
and a missing `user_dict_path` is the `NotFound` error of the source. -/
def add_user_word (d : SimpleDictionary) (word : List Char) (fs_ok : Bool) :
    SimpleDictionary × Except String Unit :=
  if contains d word then (d, .ok ())
  else
    let d' := { d with words := d.words ++ [(word, false)] }
    match d.user_dict_path with
    | some _ => (d', if fs_ok then .ok () else .error "io error")
    | none => (d', .error "User dictionary path not configured")

end SimpleDictionary

/-- Substitution cost of `levenshtein_distance`: `0` when the codepoints are
equal ignoring ASCII case, else `1`. -/
def costCh (x y : Char) : Nat :=
  if eqIgnoreAsciiCase x y then 0 else 1

/-- Inner loop of `levenshtein_distance`: walk the remaining codepoints of
`b` together with the tail of the previous row, threading `prev_row[j-1]`
and `curr_row[j-1]`, producing the tail of the current row. -/
def levInner (x : Char) : List Char → List Nat → Nat → Nat → List Nat
  | [], _, _, _ => []
  | _ :: _, [], _, _ => []
  | y :: ys, pj :: prest, pjm1, cjm1 =>
    let c := min (min (pj + 1) (cjm1 + 1)) (pjm1 + costCh x y)
    c :: levInner x ys prest pj c

/-- Outer loop of `levenshtein_distance`: for each codepoint of `a` build the
next row from the previous one (`curr_row[0] = i`), returning the last row. -/
def levRows (b : List Char) : List Char → Nat → List Nat → List Nat
  | [], _, prev_row => prev_row
  | _ :: _, _, [] => []
  | x :: xs, i, p0 :: prest =>
    levRows b xs (i + 1) ((i + 1) :: levInner x b prest p0 (i + 1))

/-- `levenshtein_distance` from `src/dictionary.rs`: two-row dynamic program
with early returns for empty inputs; the result is clamped to `255` by the
`u8` return conversion. -/
def levenshtein_distance (a b : List Char) : Nat :=
  if a.length = 0 then min b.length 255
  else if b.length = 0 then min a.length 255
  else
    let prev_row := List.range (b.length + 1)
    let final_row := levRows b a 0 prev_row
    min (final_row.getD b.length 0) 255

namespace SimpleDictionary

/-- The filtering pass of `fuzzy_match`: every stored entry within
`max_edit_distance` of the query, in store order. -/
def fuzzyCandidates (d : SimpleDictionary) (query : List Char) (max_edit_distance : Nat) :
    List FuzzyMatchResult :=
  d.words.filterMap fun w =>
    let distance := levenshtein_distance query w.1
    if distance ≤ max_edit_distance then some ⟨w.1, distance, w.2⟩ else none

/-- The comparator of `fuzzy_match`'s `sort_by`: edit distance ascending,
then commonality descending (`b.is_common.cmp(&a.is_common)`). -/
def fuzzyCmp (a b : FuzzyMatchResult) : Ordering :=
  (compare a.edit_distance b.edit_distance).then (compare b.is_common a.is_common)

/-- The non-strict order induced by `fuzzyCmp` (Rust `sort_by` sorts
ascending with respect to its comparator). -/
def fuzzyLe (a b : FuzzyMatchResult) : Bool :=
  fuzzyCmp a b != Ordering.gt

/-- `SimpleDictionary::fuzzy_match`: filter, stable sort, truncate.  Rust
`slice::sort_by` is a stable sort, embedded as `List.mergeSort`. -/
def fuzzy_match (d : SimpleDictionary) (query : List Char)
    (max_edit_distance : Nat) (max_results : Nat) : List FuzzyMatchResult :=
  ((fuzzyCandidates d query max_edit_distance).mergeSort fuzzyLe).take max_results

end SimpleDictionary

/-! ## `src/backend.rs`: tokenizer, diagnostics and completion scoring -/

/-- `is_word_char`: alphanumeric codepoints plus the enumerated Polish
diacritic letters.  Rust `char::is_alphanumeric` consults the Unicode
general-category table, which is external to this repository; it is embedded
here on the ASCII range, on which the dictionary and tokenizer operate
together with the explicitly listed diacritics. -/
def is_word_char (ch : Char) : Bool :=
  (decide (97 ≤ ch.toNat) && decide (ch.toNat ≤ 122)) ||
  (decide (65 ≤ ch.toNat) && decide (ch.toNat ≤ 90)) ||
  (decide (48 ≤ ch.toNat) && decide (ch.toNat ≤ 57)) ||
  (ch == 'ą' || ch == 'ć' || ch == 'ę' || ch == 'ł' || ch == 'ń' ||
   ch == 'ó' || ch == 'ś' || ch == 'ź' || ch == 'ż' ||
   ch == 'Ą' || ch == 'Ć' || ch == 'Ę' || ch == 'Ł' || ch == 'Ń' ||
   ch == 'Ó' || ch == 'Ś' || ch == 'Ź' || ch == 'Ż')

/-- The inner `while` of `extract_words`: first index at or after `i` that is
past the end of `source` or holds a non-word character. -/
def wordEnd (source : List Char) (i : Nat) : Nat :=
  if h : i < source.length then
    if is_word_char source[i] then wordEnd source (i + 1) else i
  else i
termination_by source.length - i

theorem wordEnd_le (source : List Char) (i : Nat) (h : i ≤ source.length) :
    wordEnd source i ≤ source.length := by
  unfold wordEnd
  split
  · split
    · exact wordEnd_le source (i + 1) (by omega)
    · omega
  · omega
termination_by source.length - i

theorem le_wordEnd (source : List Char) (i : Nat) : i ≤ wordEnd source i := by
  unfold wordEnd
  split
  · split
    · have := le_wordEnd source (i + 1)
      omega
    · omega
  · omega
termination_by source.length - i

theorem wordEnd_step (source : List Char) (i : Nat) (h : i < source.length)
    (hw : is_word_char source[i] = true) :
    wordEnd source i = wordEnd source (i + 1) := by
  conv_lhs => rw [wordEnd]
  simp [h, hw]

/-- The outer `while` of `extract_words`, scanning from index `i`. -/
def extractWordsFrom (source : List Char) (i : Nat) : List (List Char × Nat × Nat) :=
  if h : i < source.length then
    if is_word_char source[i] then
      let e := wordEnd source i
      ((source.take e).drop i, i, e) :: extractWordsFrom source e
    else
      extractWordsFrom source (i + 1)
  else []
termination_by source.length - i
decreasing_by
  · rename_i hw
    have h1 : i + 1 ≤ wordEnd source (i + 1) := le_wordEnd source (i + 1)
    have h2 : wordEnd source i = wordEnd source (i + 1) := wordEnd_step source i h hw
    have h3 : wordEnd source (i + 1) ≤ source.length :=
      wordEnd_le source (i + 1) (by omega)
    omega
  · omega

/-- `extract_words`: maximal runs of word characters with their spans. -/
def extract_words (source : List Char) : List (List Char × Nat × Nat) :=
  extractWordsFrom source 0

/-- An LSP diagnostic as produced by `publish_diagnostics` (the fields the
core computes: the range endpoints and the message). -/
structure Diagnostic where
  rangeStart : Position
  rangeEnd : Position
  message : String
deriving DecidableEq

/-- The ASCII apostrophe, written by codepoint. -/
def apos : String := String.mk [Char.ofNat 39]

/-- The diagnostic record built for one unknown word occurrence. -/
def unknownWordDiagnostic (source : List Char) (line_starts : List Nat)
    (w : List Char × Nat × Nat) : Diagnostic :=
  ⟨LineIndex.index_to_position source line_starts w.2.1,
   LineIndex.index_to_position source line_starts w.2.2,
   "Unknown word: " ++ apos ++ String.mk w.1 ++ apos⟩

/-- `Backend::publish_diagnostics` (its pure part: the diagnostics list built
for one document against one dictionary): skip words shorter than 3
codepoints, skip all-ASCII-digit words, and report each remaining word that
fails `contains` with its converted range and message. -/
def publish_diagnostics (d : SimpleDictionary) (source : List Char)
    (line_starts : List Nat) : List Diagnostic :=
  (extract_words source).foldl
    (fun diagnostics w =>
      if w.1.length < 3 then diagnostics
      else if w.1.all is_ascii_digit then diagnostics
      else if d.contains w.1 then diagnostics
      else diagnostics ++ [unknownWordDiagnostic source line_starts w])
    []

/-- `calculate_completion_score`.  The Rust function works in `f32`, but
every quantity involved is a small integer (base 100, penalties up to 100,
bonuses 50/30/35 and 8 per matched codepoint), on which `f32` addition and
subtraction are exact; the embedding therefore uses exact `Int` arithmetic. -/
def calculate_completion_score (query candidate : List Char)
    (edit_distance : Nat) (is_common : Bool) : Int :=
  let score : Int := 100
  let score := score - (match edit_distance with
    | 0 => (0 : Int) | 1 => 20 | 2 => 50 | _ => 100)
  let score : Int := match query, candidate with
    | q :: _, c :: _ => if eqIgnoreAsciiCase q c then score + 50 else score - 30
    | _, _ => score
  let prefixMatchLen :=
    ((query.zip candidate).takeWhile fun p => eqIgnoreAsciiCase p.1 p.2).length
  let score := score + prefixMatchLen * 8
  if is_common then score + 35 else score

/-! ## The classic Levenshtein recursion and its equivalence with the DP -/

/-- Classic Levenshtein recursion with unit insertion/deletion cost and
substitution cost `costCh` (the reference definition the DP is compared
against). -/
def levRec : List Char → List Char → Nat
  | [], ys => ys.length
  | x :: xs, [] => (x :: xs).length
  | x :: xs, y :: ys =>
    min (levRec xs (y :: ys) + 1)
      (min (levRec (x :: xs) ys + 1) (levRec xs ys + costCh x y))
termination_by a b => a.length + b.length

@[simp] theorem levRec_nil_left (ys : List Char) : levRec [] ys = ys.length := by
  rw [levRec]

@[simp] theorem levRec_nil_right (xs : List Char) : levRec xs [] = xs.length := by
  cases xs <;> rw [levRec]

theorem levRec_cons_cons (x y : Char) (xs ys : List Char) :
    levRec (x :: xs) (y :: ys) =
      min (levRec xs (y :: ys) + 1)
        (min (levRec (x :: xs) ys + 1) (levRec xs ys + costCh x y)) := by
  rw [levRec]

theorem costCh_le_one (x y : Char) : costCh x y ≤ 1 := by
  unfold costCh; split <;> omega

theorem costCh_self (x : Char) : costCh x x = 0 := by
  simp [costCh, eqIgnoreAsciiCase]

theorem costCh_comm (x y : Char) : costCh x y = costCh y x := by
  simp only [costCh, eqIgnoreAsciiCase]
  rcases eq_or_ne (toAsciiLower x) (toAsciiLower y) with h | h
  · simp [h]
  · simp [h, Ne.symm h]

theorem costCh_triangle (x y z : Char) : costCh x z ≤ costCh x y + costCh y z := by
  have hz := costCh_le_one x z
  by_cases h1 : eqIgnoreAsciiCase x y = true
  · by_cases h2 : eqIgnoreAsciiCase y z = true
    · have h3 : eqIgnoreAsciiCase x z = true := by
        simp only [eqIgnoreAsciiCase, beq_iff_eq] at h1 h2 ⊢
        exact h1.trans h2
      simp [costCh, h1, h2, h3]
    · have h4 : costCh y z = 1 := by simp [costCh, h2]
      omega
  · have h4 : costCh x y = 1 := by simp [costCh, h1]
    omega

set_option maxHeartbeats 1600000 in
/-- The key structural fact: the Levenshtein recursion on the last
codepoints, derived from the recursion on the first codepoints. -/
theorem levRec_append_single (x y : Char) :
    ∀ as bs : List Char,
      levRec (as ++ [x]) (bs ++ [y]) =
        min (levRec as (bs ++ [y]) + 1)
          (min (levRec (as ++ [x]) bs + 1) (levRec as bs + costCh x y)) := by
  intro as
  induction as with
  | nil =>
    intro bs
    induction bs with
    | nil =>
      simp only [List.nil_append]
      rw [levRec_cons_cons]
    | cons b bs' ihb =>
      have ih0 := ihb
      simp only [List.nil_append, List.cons_append] at *
      rw [levRec_cons_cons x b [] (bs' ++ [y]), ih0,
        levRec_cons_cons x b [] bs']
      simp only [levRec_nil_left, levRec_nil_right, List.length_append,
        List.length_cons, List.length_nil, ← Nat.add_min_add_right]
      simp only [Nat.zero_add, Nat.add_zero, Nat.add_assoc, Nat.add_comm,
        Nat.add_left_comm, min_assoc, min_comm, min_left_comm]
  | cons a as' ih =>
    intro bs
    induction bs with
    | nil =>
      have ih0 := ih []
      simp only [List.nil_append, List.cons_append] at *
      rw [levRec_cons_cons a y (as' ++ [x]) [], ih0,
        levRec_cons_cons a y as' []]
      simp only [levRec_nil_left, levRec_nil_right, List.length_append,
        List.length_cons, List.length_nil, ← Nat.add_min_add_right]
      simp only [Nat.zero_add, Nat.add_zero, Nat.add_assoc, Nat.add_comm,
        Nat.add_left_comm, min_assoc, min_comm, min_left_comm]
    | cons b bs' ihb =>
      have ih1 := ih (b :: bs')
      have ih2 := ih bs'
      simp only [List.cons_append] at *
      rw [levRec_cons_cons a b (as' ++ [x]) (bs' ++ [y]), ih1, ihb, ih2,
        levRec_cons_cons a b (as' ++ [x]) bs',
        levRec_cons_cons a b as' (bs' ++ [y]),
        levRec_cons_cons a b as' bs']
      simp only [← Nat.add_min_add_right]
      simp only [Nat.add_assoc, Nat.add_comm, Nat.add_left_comm, min_assoc,
        min_comm, min_left_comm]

/-- Levenshtein distance is invariant under reversing both sequences. -/
theorem levRec_reverse : ∀ a b : List Char, levRec a.reverse b.reverse = levRec a b := by
  intro a
  induction a with
  | nil => intro b; simp
  | cons x xs ih =>
    intro b
    induction b with
    | nil => simp
    | cons y ys ihb =>
      rw [List.reverse_cons, List.reverse_cons, levRec_append_single,
        ← List.reverse_cons, ← List.reverse_cons, ih (y :: ys), ihb, ih ys,
        levRec_cons_cons]


/-- The row of Levenshtein values the DP maintains: entry `j` is the distance
between `ras` (the processed part of `a`, reversed) and the reversed `j`-th
prefix of the remaining part `bs` of `b`, on top of the already reversed
part `rb`. -/
def rowAux (ras : List Char) : List Char → List Char → List Nat
  | rb, [] => [levRec ras rb]
  | rb, y :: ys => levRec ras rb :: rowAux ras (y :: rb) ys

theorem rowAux_head_tail (ras rb bs : List Char) :
    rowAux ras rb bs = levRec ras rb :: (rowAux ras rb bs).tail := by
  cases bs <;> rfl

theorem levInner_rowAux (x : Char) (ras : List Char) :
    ∀ (bs rb : List Char),
      levInner x bs (rowAux ras rb bs).tail (levRec ras rb) (levRec (x :: ras) rb)
        = (rowAux (x :: ras) rb bs).tail := by
  intro bs
  induction bs with
  | nil => intro rb; rfl
  | cons y ys ih =>
    intro rb
    show levInner x (y :: ys) (rowAux ras (y :: rb) ys)
      (levRec ras rb) (levRec (x :: ras) rb) = rowAux (x :: ras) (y :: rb) ys
    rw [rowAux_head_tail ras (y :: rb) ys, levInner]
    have hc : min (min (levRec ras (y :: rb) + 1) (levRec (x :: ras) rb + 1))
        (levRec ras rb + costCh x y) = levRec (x :: ras) (y :: rb) := by
      rw [levRec_cons_cons]
      simp only [min_assoc, min_comm, min_left_comm]
    simp only [hc, ih (y :: rb)]
    exact (rowAux_head_tail (x :: ras) (y :: rb) ys).symm

theorem levRows_rowAux (b : List Char) :
    ∀ (xs ras : List Char),
      levRows b xs ras.length (rowAux ras [] b) = rowAux (xs.reverse ++ ras) [] b := by
  intro xs
  induction xs with
  | nil => intro ras; simp [levRows]
  | cons x xs' ih =>
    intro ras
    rw [rowAux_head_tail ras [] b, levRows]
    have h0 : levRec ras [] = ras.length := levRec_nil_right ras
    have h1 : ras.length + 1 = levRec (x :: ras) [] := by
      simp [levRec_nil_right]
    rw [h1, levInner_rowAux x ras b [], ← rowAux_head_tail (x :: ras) [] b]
    have h3 := ih (x :: ras)
    have h4 : levRec (x :: ras) [] = (x :: ras).length := levRec_nil_right _
    rw [h4, h3]
    simp [List.reverse_cons, List.append_assoc]

theorem rowAux_range :
    ∀ (bs rb : List Char), rowAux [] rb bs = List.range' rb.length (bs.length + 1) := by
  intro bs
  induction bs with
  | nil => intro rb; simp [rowAux]
  | cons y ys ih =>
    intro rb
    rw [rowAux, ih (y :: rb)]
    simp [List.range'_succ]

theorem rowAux_getD_last :
    ∀ (bs rb ras : List Char), (rowAux ras rb bs).getD bs.length 0
      = levRec ras (bs.reverse ++ rb) := by
  intro bs
  induction bs with
  | nil => intro rb ras; rfl
  | cons y ys ih =>
    intro rb ras
    rw [rowAux]
    show (rowAux ras (y :: rb) ys).getD ys.length 0 = levRec ras ((y :: ys).reverse ++ rb)
    rw [ih (y :: rb) ras]
    simp [List.reverse_cons, List.append_assoc]


/-- The DP of `levenshtein_distance` computes the classic recursion `levRec`,
capped at `255` by the `u8` conversion. -/
theorem levenshtein_distance_eq_levRec (a b : List Char) :
    levenshtein_distance a b = min (levRec a b) 255 := by
  rcases a with _ | ⟨x, xs⟩
  · simp [levenshtein_distance]
  · rcases b with _ | ⟨y, ys⟩
    · simp [levenshtein_distance]
    · have hr : List.range (ys.length + 1 + 1) = rowAux [] [] (y :: ys) := by
        rw [rowAux_range (y :: ys) []]
        simp [List.range_eq_range']
      have hrows := levRows_rowAux (y :: ys) (x :: xs) []
      simp only [List.length_nil] at hrows
      simp only [levenshtein_distance, List.length_cons, Nat.succ_ne_zero,
        if_false]
      rw [hr, hrows, List.append_nil]
      have hlast := rowAux_getD_last (y :: ys) [] (x :: xs).reverse
      simp only [List.length_cons] at hlast
      rw [hlast, List.append_nil, levRec_reverse]

theorem levRec_self (a : List Char) : levRec a a = 0 := by
  induction a with
  | nil => simp
  | cons x xs ih =>
    rw [levRec_cons_cons]
    simp [ih, costCh_self]

theorem levRec_comm : ∀ a b : List Char, levRec a b = levRec b a := by
  intro a
  induction a with
  | nil => intro b; simp
  | cons x xs ih =>
    intro b
    induction b with
    | nil => simp
    | cons y ys ihb =>
      rw [levRec_cons_cons x y xs ys, levRec_cons_cons y x ys xs,
        ih (y :: ys), ihb, ih ys, costCh_comm]
      simp only [min_assoc, min_comm, min_left_comm]

/-- A sequence of single-codepoint edits of total cost `n` turning one
codepoint sequence into another (substituting `x` by `y` costs `costCh x y`,
insertion and deletion cost `1`). -/
inductive Edits : List Char → List Char → Nat → Prop where
  | nil : Edits [] [] 0
  | del (x : Char) {as bs : List Char} {n : Nat} :
      Edits as bs n → Edits (x :: as) bs (n + 1)
  | ins (y : Char) {as bs : List Char} {n : Nat} :
      Edits as bs n → Edits as (y :: bs) (n + 1)
  | sub (x y : Char) {as bs : List Char} {n : Nat} :
      Edits as bs n → Edits (x :: as) (y :: bs) (n + costCh x y)

theorem levRec_del_le (x : Char) (as bs : List Char) :
    levRec (x :: as) bs ≤ levRec as bs + 1 := by
  cases bs with
  | nil => simp
  | cons y ys =>
    rw [levRec_cons_cons]
    exact min_le_left _ _

theorem levRec_ins_le (y : Char) (as bs : List Char) :
    levRec as (y :: bs) ≤ levRec as bs + 1 := by
  cases as with
  | nil => simp
  | cons x xs =>
    rw [levRec_cons_cons]
    exact le_trans (min_le_right _ _) (le_trans (min_le_left _ _) (le_refl _))

theorem levRec_sub_le (x y : Char) (as bs : List Char) :
    levRec (x :: as) (y :: bs) ≤ levRec as bs + costCh x y := by
  rw [levRec_cons_cons]
  exact le_trans (min_le_right _ _) (min_le_right _ _)

/-- Any edit sequence bounds the Levenshtein distance from above. -/
theorem levRec_le_of_edits {a b : List Char} {n : Nat} (h : Edits a b n) :
    levRec a b ≤ n := by
  induction h with
  | nil => simp
  | del x h ih => exact le_trans (levRec_del_le _ _ _) (by omega)
  | ins y h ih => exact le_trans (levRec_ins_le _ _ _) (by omega)
  | sub x y h ih => exact le_trans (levRec_sub_le _ _ _ _) (by omega)

/-- The Levenshtein distance is realised by some edit sequence. -/
theorem edits_levRec : ∀ a b : List Char, Edits a b (levRec a b) := by
  intro a
  induction a with
  | nil =>
    intro b
    induction b with
    | nil =>
      rw [show levRec ([] : List Char) [] = 0 by simp]
      exact .nil
    | cons y ys ihb =>
      have h : levRec [] (y :: ys) = levRec [] ys + 1 := by simp
      rw [h]
      exact .ins y ihb
  | cons x xs ih =>
    intro b
    induction b with
    | nil =>
      have h : levRec (x :: xs) [] = levRec xs [] + 1 := by simp
      rw [h]
      exact .del x (ih [])
    | cons y ys ihb =>
      have h3 : levRec (x :: xs) (y :: ys) = levRec xs (y :: ys) + 1 ∨
          levRec (x :: xs) (y :: ys) = levRec (x :: xs) ys + 1 ∨
          levRec (x :: xs) (y :: ys) = levRec xs ys + costCh x y := by
        rw [levRec_cons_cons]
        rcases le_total (levRec xs (y :: ys) + 1)
            (min (levRec (x :: xs) ys + 1) (levRec xs ys + costCh x y)) with h | h
        · left; exact min_eq_left h
        · rcases le_total (levRec (x :: xs) ys + 1) (levRec xs ys + costCh x y) with
            h2 | h2
          · right; left
            rw [min_eq_right h, min_eq_left h2]
          · right; right
            rw [min_eq_right h, min_eq_right h2]
      rcases h3 with h3 | h3 | h3
      · rw [h3]; exact .del x (ih (y :: ys))
      · rw [h3]; exact .ins y ihb
      · rw [h3]; exact .sub x y (ih ys)


/-- Edit sequences compose: a script `a` to `b` and a script `b` to `c`
yield a script `a` to `c` of at most the summed cost.  Strong induction on
`m + n + b.length`. -/
theorem edits_comp :
    ∀ (fuel : Nat) (a b c : List Char) (m n : Nat),
      m + n + b.length ≤ fuel → Edits a b m → Edits b c n →
      ∃ k, k ≤ m + n ∧ Edits a c k := by
  intro fuel
  induction fuel with
  | zero =>
    intro a b c m n hf d1 d2
    cases d2 with
    | nil => exact ⟨m, by omega, d1⟩
    | ins y d2' => exact absurd hf (by omega)
    | del y d2' => exact absurd hf (by simp only [List.length_cons]; omega)
    | sub y z d2' => exact absurd hf (by simp only [List.length_cons]; omega)
  | succ f ih =>
    intro a b c m n hf d1 d2
    cases d2 with
    | nil => exact ⟨m, by omega, d1⟩
    | ins z d2' =>
      obtain ⟨k, hk, dk⟩ := ih a b _ m _ (by omega) d1 d2'
      exact ⟨k + 1, by omega, .ins z dk⟩
    | del y d2' =>
      cases d1 with
      | ins _ d1' =>
        obtain ⟨k, hk, dk⟩ := ih a _ c _ _ (by simp only [List.length_cons] at hf ⊢; omega) d1' d2'
        exact ⟨k, by omega, dk⟩
      | del x d1' =>
        obtain ⟨k, hk, dk⟩ :=
          ih _ _ c _ _ (by simp only [List.length_cons] at hf ⊢; omega) d1' (Edits.del y d2')
        exact ⟨k + 1, by omega, .del x dk⟩
      | sub x yy d1' =>
        obtain ⟨k, hk, dk⟩ := ih _ _ c _ _ (by simp only [List.length_cons] at hf ⊢; omega) d1' d2'
        exact ⟨k + 1, by omega, .del x dk⟩
    | sub y z d2' =>
      cases d1 with
      | ins _ d1' =>
        obtain ⟨k, hk, dk⟩ := ih a _ _ _ _ (by simp only [List.length_cons] at hf ⊢; omega) d1' d2'
        exact ⟨k + 1, by omega, .ins z dk⟩
      | del x d1' =>
        obtain ⟨k, hk, dk⟩ :=
          ih _ _ _ _ _ (by simp only [List.length_cons] at hf ⊢; omega) d1' (Edits.sub y z d2')
        exact ⟨k + 1, by omega, .del x dk⟩
      | sub x yy d1' =>
        obtain ⟨k, hk, dk⟩ := ih _ _ _ _ _ (by simp only [List.length_cons] at hf ⊢; omega) d1' d2'
        refine ⟨k + costCh x z, ?_, .sub x z dk⟩
        have ht := costCh_triangle x y z
        omega

/-- Triangle inequality for the classic recursion. -/
theorem levRec_triangle (a b c : List Char) :
    levRec a c ≤ levRec a b + levRec b c := by
  obtain ⟨k, hk, dk⟩ :=
    edits_comp (levRec a b + levRec b c + b.length) a b c _ _ (le_refl _)
      (edits_levRec a b) (edits_levRec b c)
  exact le_trans (levRec_le_of_edits dk) hk


/-- Reference definition following the spec's words for the matcher's cost:
substitution is free exactly when the two codepoints case-fold equal under
Unicode case folding (so `Ż` and `ż` match), else costs `1`. -/
def costChFold (x y : Char) : Nat :=
  if to_lowercase x == to_lowercase y then 0 else 1

/-- Reference definition following the spec's words: the classic Levenshtein
distance whose substitution cost is `costChFold`, with unit
insertion/deletion cost. -/
def levRecFold : List Char → List Char → Nat
  | [], ys => ys.length
  | x :: xs, [] => (x :: xs).length
  | x :: xs, y :: ys =>
    min (levRecFold xs (y :: ys) + 1)
      (min (levRecFold (x :: xs) ys + 1) (levRecFold xs ys + costChFold x y))
termination_by a b => a.length + b.length

/-- C2 counterexample: the matcher compares codepoints with
`eq_ignore_ascii_case`, not Unicode case folding, so `Ż` vs `ż` costs `1`
where the claimed reference distance is `0`; moreover the `u8` return caps
the claimed `distance([], b) = |b|` rule at `255`. -/
theorem levenshtein_distance_not_unicode_fold :
    levenshtein_distance ['Ż'] ['ż'] = 1 ∧
    levRecFold ['Ż'] ['ż'] = 0 ∧
    levenshtein_distance [] (List.replicate 256 'a') = 255 := by
  have hc : costChFold 'Ż' 'ż' = 0 := by decide
  refine ⟨by decide, ?_, ?_⟩
  · simp only [levRecFold, hc, List.length_cons, List.length_nil]
    omega
  · have he : ∀ bs : List Char, levenshtein_distance [] bs = min bs.length 255 :=
      fun bs => by simp [levenshtein_distance]
    rw [he, List.length_replicate]
    omega

/-- C2 (amended): the matcher's distance is the classic Levenshtein distance
in which substitution is free exactly when the codepoints are equal ignoring
ASCII case, insertion and deletion always cost `1`, capped at `255`; in
particular the distance between the empty sequence and a sequence of length
`k` is `min k 255`. -/
theorem levenshtein_distance_is_ascii_levenshtein (a b : List Char) :
    levenshtein_distance a b = min (levRec a b) 255 ∧
    levenshtein_distance [] b = min b.length 255 :=
  ⟨levenshtein_distance_eq_levRec a b, by simp [levenshtein_distance]⟩

/-- C6: the matcher's distance is a metric up to ASCII case folding —
reflexive entries vanish, it is symmetric, and the triangle inequality
holds, all under the saturating `255` cap. -/
theorem levenshtein_distance_metric (a b c : List Char) :
    levenshtein_distance a a = 0 ∧
    levenshtein_distance a b = levenshtein_distance b a ∧
    levenshtein_distance a c ≤ levenshtein_distance a b + levenshtein_distance b c := by
  refine ⟨?_, ?_, ?_⟩
  · rw [levenshtein_distance_eq_levRec, levRec_self]
    simp
  · rw [levenshtein_distance_eq_levRec, levenshtein_distance_eq_levRec,
      levRec_comm]
  · rw [levenshtein_distance_eq_levRec, levenshtein_distance_eq_levRec,
      levenshtein_distance_eq_levRec]
    have h1 := levRec_triangle a b c
    omega


/-! ## Dictionary store claims -/

theorem zip_self_fold_all (w : List Char) :
    (w.zip w).all (fun p => to_lowercase p.1 == to_lowercase p.2) = true := by
  induction w with
  | nil => rfl
  | cons x xs ih => simp [List.zip_cons_cons, ih]

/-- A word stored verbatim is found by the case-insensitive lookup. -/
theorem contains_of_mem {d : SimpleDictionary} {w : List Char} {flag : Bool}
    (h : (w, flag) ∈ d.words) : d.contains w = true := by
  unfold SimpleDictionary.contains
  rw [List.any_eq_true]
  exact ⟨(w, flag), h, by simp [zip_self_fold_all w]⟩

/-- A word already present makes `add_user_word` a no-op success. -/
theorem add_user_word_of_contains (d : SimpleDictionary) (w : List Char) (fs : Bool)
    (h : d.contains w = true) : d.add_user_word w fs = (d, .ok ()) := by
  unfold SimpleDictionary.add_user_word
  simp [h]

/-- After `add_user_word` the word is always in the in-memory store. -/
theorem contains_after_add_user_word (d : SimpleDictionary) (w : List Char) (fs : Bool) :
    (d.add_user_word w fs).1.contains w = true := by
  unfold SimpleDictionary.add_user_word
  by_cases h : d.contains w = true
  · simp [h]
  · have h' : d.contains w = false := by
      simpa using h
    cases hp : d.user_dict_path <;>
      simp only [h', hp, Bool.false_eq_true, if_false] <;>
      exact contains_of_mem (List.mem_append_right _ (List.mem_singleton_self (w, false)))

/-- C3 counterexample: `add_word` pushes unconditionally, so adding the same
word twice grows the store from one entry to two. -/
theorem add_word_not_idempotent :
    ((SimpleDictionary.new.add_word ['a'] false).add_word ['a'] false).words.length = 2 ∧
    (SimpleDictionary.new.add_word ['a'] false).words.length = 1 :=
  ⟨rfl, rfl⟩

/-- C3 (amended): the two-argument `add_word` appends unconditionally,
growing the store by one entry on every call (even for duplicates); the
idempotent entry point is the user-add path `add_user_word`, whose second
invocation with the same word leaves the entry count unchanged. -/
theorem add_word_appends_add_user_word_idempotent :
    (∀ (d : SimpleDictionary) (w : List Char) (c : Bool),
      (d.add_word w c).words.length = d.words.length + 1) ∧
    (∀ (d : SimpleDictionary) (w : List Char) (fs1 fs2 : Bool),
      ((d.add_user_word w fs1).1.add_user_word w fs2).1.words.length
        = (d.add_user_word w fs1).1.words.length) := by
  constructor
  · intro d w c
    simp [SimpleDictionary.add_word]
  · intro d w fs1 fs2
    rw [add_user_word_of_contains _ _ _ (contains_after_add_user_word d w fs1)]

/-- C9: for a word not yet present, `add_user_word` always updates the
in-memory store — `contains` holds afterwards — even when persistence
fails; with no user-dictionary path configured it reports an error while
the store is still updated. -/
theorem add_user_word_updates_memory (d : SimpleDictionary) (w : List Char) (fs : Bool)
    (h : d.contains w = false) :
    (d.add_user_word w fs).1.contains w = true ∧
    (d.user_dict_path = none → ∃ e, (d.add_user_word w fs).2 = .error e) := by
  refine ⟨contains_after_add_user_word d w fs, fun hp => ?_⟩
  unfold SimpleDictionary.add_user_word
  simp [h, hp]

theorem add_user_word_updates_memory_witness :
    SimpleDictionary.new.contains ['a'] = false ∧
    (SimpleDictionary.new.add_user_word ['a'] true).1.contains ['a'] = true :=
  ⟨rfl, (add_user_word_updates_memory SimpleDictionary.new ['a'] true rfl).1⟩

/-- C10: the user-add path always stores the new entry with its commonality
flag `false`, and the flag being `false` is exactly what forfeits the flat
`+35` common-word bonus of the completion score. -/
theorem add_user_word_stores_uncommon (d : SimpleDictionary) (w : List Char) (fs : Bool)
    (h : d.contains w = false) :
    (d.add_user_word w fs).1.words = d.words ++ [(w, false)] ∧
    (∀ (q c : List Char) (dist : Nat),
      calculate_completion_score q c dist true
        = calculate_completion_score q c dist false + 35) := by
  constructor
  · unfold SimpleDictionary.add_user_word
    cases hp : d.user_dict_path <;> simp [h, hp]
  · intro q c dist
    simp [calculate_completion_score]

theorem add_user_word_stores_uncommon_witness :
    (SimpleDictionary.new.add_user_word ['a'] true).1.words = [(['a'], false)] := by
  have h := (add_user_word_stores_uncommon SimpleDictionary.new ['a'] true rfl).1
  simpa using h


/-! ## Completion scoring claims -/

/-- Reference definition following the spec's words: the distance penalty
table 0/1/2/other to 0/20/50/100. -/
def distancePenalty : Nat → Int
  | 0 => 0
  | 1 => 20
  | 2 => 50
  | _ => 100

/-- Reference definition following the spec's words, with the claimed
Unicode case folding: first-codepoint term (+50 match, -30 mismatch,
skipped when either side is empty). -/
def firstLetterTermFold : List Char → List Char → Int
  | q :: _, c :: _ => if to_lowercase q == to_lowercase c then 50 else -30
  | _, _ => 0

/-- Reference definition following the spec's words, with the claimed
Unicode case folding: leading case-fold-equal codepoint pairs up to the
first mismatch. -/
def commonPrefixLenFold : List Char → List Char → Nat
  | q :: qs, c :: cs =>
    if to_lowercase q == to_lowercase c then commonPrefixLenFold qs cs + 1 else 0
  | _, _ => 0

/-- The reference completion score exactly as the claim words it, reading
"case-fold equal" as Unicode case folding. -/
def completion_score_fold_spec (q c : List Char) (dist : Nat) (common : Bool) : Int :=
  100 - distancePenalty dist + firstLetterTermFold q c
    + 8 * commonPrefixLenFold q c + (if common then 35 else 0)

/-- First-codepoint term as the code computes it (ASCII case folding). -/
def firstLetterTerm : List Char → List Char → Int
  | q :: _, c :: _ => if eqIgnoreAsciiCase q c then 50 else -30
  | _, _ => 0

/-- Leading matching codepoint pairs under ASCII case folding. -/
def commonPrefixLen : List Char → List Char → Nat
  | q :: qs, c :: cs =>
    if eqIgnoreAsciiCase q c then commonPrefixLen qs cs + 1 else 0
  | _, _ => 0

/-- The reference completion score with ASCII case folding. -/
def completion_score_spec (q c : List Char) (dist : Nat) (common : Bool) : Int :=
  100 - distancePenalty dist + firstLetterTerm q c
    + 8 * commonPrefixLen q c + (if common then 35 else 0)

/-- C8 counterexample: the score compares codepoints with
`eq_ignore_ascii_case`, so for query `Ż` and candidate `ż` the code yields
`70` (first-letter mismatch, no prefix bonus) where the claimed reference
with Unicode case folding yields `158`. -/
theorem completion_score_not_unicode_fold :
    calculate_completion_score ['Ż'] ['ż'] 0 false = 70 ∧
    completion_score_fold_spec ['Ż'] ['ż'] 0 false = 158 :=
  ⟨by decide, by decide⟩

theorem takeWhile_zip_eq_commonPrefixLen :
    ∀ q c : List Char,
      ((q.zip c).takeWhile fun p => eqIgnoreAsciiCase p.1 p.2).length
        = commonPrefixLen q c := by
  intro q
  induction q with
  | nil => intro c; simp [commonPrefixLen]
  | cons q0 qs ih =>
    intro c
    cases c with
    | nil => simp [commonPrefixLen]
    | cons c0 cs =>
      by_cases h0 : eqIgnoreAsciiCase q0 c0 = true <;>
        simp [List.zip_cons_cons, List.takeWhile_cons, h0, commonPrefixLen, ih cs]

/-- C8 (amended): the completion score equals the reference definition with
the comparisons read as ASCII case folding (base 100, distance penalty
0/20/50/100, first-codepoint term of +50 or -30, skipped when a side is empty,
+8 per leading matching pair, +35 when common); in particular
`score("test", "test", 0, false) = 182`. -/
theorem calculate_completion_score_matches_spec :
    (∀ (q c : List Char) (dist : Nat) (common : Bool),
      calculate_completion_score q c dist common = completion_score_spec q c dist common) ∧
    calculate_completion_score ['t','e','s','t'] ['t','e','s','t'] 0 false = 182 := by
  constructor
  · intro q c dist common
    have hpre := takeWhile_zip_eq_commonPrefixLen q c
    rcases q with _ | ⟨q0, qs⟩ <;> rcases c with _ | ⟨c0, cs⟩ <;>
      rcases dist with _ | _ | _ | n <;>
      simp only [calculate_completion_score, completion_score_spec,
        distancePenalty, firstLetterTerm, hpre] <;>
      cases common <;>
      first
        | (simp only [Bool.false_eq_true, if_false, if_true]; try split) <;> omega
        | omega
  · decide


/-! ## Position conversion claims -/

theorem length_le_utf16Length (l : List Char) : l.length ≤ utf16Length l := by
  induction l with
  | nil => simp [utf16Length]
  | cons x xs ih =>
    have h1 : 1 ≤ charUtf16Len x := by
      unfold charUtf16Len
      split <;> omega
    simp only [utf16Length, List.map_cons, List.sum_cons, List.length_cons] at *
    omega

/-- C5: `position_to_index` is total and clamps out-of-range input: a line
beyond the known lines yields the document's last offset
(`len.saturating_sub(1)`), and a column beyond the line's UTF-16 unit
length (terminator included) clamps to the line's end offset, one past its
terminator. -/
theorem position_to_index_total_clamps (source : List Char) (pos : Position) :
    ((LineIndex.new source).length ≤ pos.line →
      LineIndex.position_to_index source (LineIndex.new source) pos
        = source.length - 1) ∧
    (∀ line_start,
      (LineIndex.new source).get? pos.line = some line_start →
      utf16Length ((source.take
          (((LineIndex.new source).get? (pos.line + 1)).getD source.length)).drop
          line_start) < pos.character →
      LineIndex.position_to_index source (LineIndex.new source) pos
        = ((LineIndex.new source).get? (pos.line + 1)).getD source.length) := by
  constructor
  · intro h
    unfold LineIndex.position_to_index
    rw [List.get?_eq_none.mpr h]
  · intro line_start hls hcol
    have hlen : ((source.take
        (((LineIndex.new source).get? (pos.line + 1)).getD source.length)).drop
        line_start).length < pos.character :=
      lt_of_le_of_lt (length_le_utf16Length _) hcol
    unfold LineIndex.position_to_index
    rw [hls]
    show (if (List.drop line_start (List.take
          (((LineIndex.new source).get? (pos.line + 1)).getD source.length)
          source)).length < pos.character
        then ((LineIndex.new source).get? (pos.line + 1)).getD source.length
        else line_start + pos.character)
      = ((LineIndex.new source).get? (pos.line + 1)).getD source.length
    rw [if_pos hlen]

theorem position_to_index_total_clamps_witness :
    LineIndex.position_to_index ['a', 'b', '\n', 'c']
      (LineIndex.new ['a', 'b', '\n', 'c']) ⟨9, 9⟩ = 3 ∧
    LineIndex.position_to_index ['a', 'b', '\n', 'c']
      (LineIndex.new ['a', 'b', '\n', 'c']) ⟨0, 9⟩ = 3 := by
  constructor
  · have h := (position_to_index_total_clamps ['a', 'b', '\n', 'c'] ⟨9, 9⟩).1 (by decide)
    rw [h]
    decide
  · have h := (position_to_index_total_clamps ['a', 'b', '\n', 'c'] ⟨0, 9⟩).2 0
      (by decide) (by decide)
    rw [h]
    decide

/-- C1: `index_to_position` counts the column in UTF-16 code units, but
`position_to_index` consumes the column as a codepoint count, so on the
document `[U+1D11E, a]` the offset `1` (column `2` in UTF-16 units, within
the line) maps to position `(0, 2)` and back to offset `2`, not `1`: the
claimed round-trip fails on codepoints outside the basic multilingual
plane. -/
theorem position_roundtrip_fails_on_astral :
    LineIndex.index_to_position [Char.ofNat 0x1D11E, 'a']
      (LineIndex.new [Char.ofNat 0x1D11E, 'a']) 1 = ⟨0, 2⟩ ∧
    LineIndex.position_to_index [Char.ofNat 0x1D11E, 'a']
      (LineIndex.new [Char.ofNat 0x1D11E, 'a']) ⟨0, 2⟩ = 2 := by
  constructor <;> decide


/-! ## Diagnostics claims -/

/-- The qualifying predicate for a spell-check diagnostic: at least 3
codepoints, not all ASCII digits, and unknown to the dictionary. -/
def diagnosable (d : SimpleDictionary) (w : List Char × Nat × Nat) : Bool :=
  decide (3 ≤ w.1.length) && !(w.1.all is_ascii_digit) && !(d.contains w.1)

theorem publish_diagnostics_foldl (d : SimpleDictionary) (source : List Char)
    (starts : List Nat) :
    ∀ (ws : List (List Char × Nat × Nat)) (acc : List Diagnostic),
      ws.foldl (fun diagnostics w =>
          if w.1.length < 3 then diagnostics
          else if w.1.all is_ascii_digit then diagnostics
          else if d.contains w.1 then diagnostics
          else diagnostics ++ [unknownWordDiagnostic source starts w]) acc
        = acc ++ (ws.filter (diagnosable d)).map (unknownWordDiagnostic source starts) := by
  intro ws
  induction ws with
  | nil => intro acc; simp
  | cons w ws' ih =>
    intro acc
    simp only [List.foldl_cons, List.filter_cons]
    by_cases h1 : w.1.length < 3
    · have hp : diagnosable d w = false := by
        simp [diagnosable]
        omega
      rw [if_pos h1, hp, ih acc]
      simp
    · by_cases h2 : w.1.all is_ascii_digit = true
      · have hp : diagnosable d w = false := by
          simp [diagnosable, h2]
        rw [if_neg h1, if_pos h2, hp, ih acc]
        simp
      · by_cases h3 : d.contains w.1 = true
        · have hp : diagnosable d w = false := by
            simp [diagnosable, h3]
          rw [if_neg h1, if_neg h2, if_pos h3, hp, ih acc]
          simp
        · have hp : diagnosable d w = true := by
            simp [diagnosable, h2, h3]
            omega
          rw [if_neg h1, if_neg h2, if_neg h3,
            ih (acc ++ [unknownWordDiagnostic source starts w]), hp]
          simp


/-- C7: the spell-check diagnostics are exactly one record, in token order,
per tokenized word that is at least 3 codepoints long, not purely numeric
(all ASCII digits) and unknown to the dictionary, each carrying the word's
start/end converted to positions and the message `Unknown word: '<word>'`
(apostrophes written via their codepoint). -/
theorem publish_diagnostics_exactly_unknown_words (d : SimpleDictionary)
    (source : List Char) :
    publish_diagnostics d source (LineIndex.new source)
      = ((extract_words source).filter (diagnosable d)).map fun w =>
          { rangeStart := LineIndex.index_to_position source (LineIndex.new source) w.2.1
            rangeEnd := LineIndex.index_to_position source (LineIndex.new source) w.2.2
            message := "Unknown word: " ++ apos ++ String.mk w.1 ++ apos } := by
  unfold publish_diagnostics
  rw [publish_diagnostics_foldl d source (LineIndex.new source) (extract_words source) []]
  simp [unknownWordDiagnostic]

/-! ## Fuzzy matching claims -/

/-- The sort key realised by `fuzzyCmp`: distance first, common entries
before uncommon ones. -/
def fuzzyKey (m : FuzzyMatchResult) : Nat :=
  2 * m.edit_distance + (if m.is_common then 0 else 1)

theorem fuzzyLe_iff (a b : FuzzyMatchResult) :
    SimpleDictionary.fuzzyLe a b = true ↔ fuzzyKey a ≤ fuzzyKey b := by
  have h1 : compare false true = Ordering.lt := rfl
  have h2 : compare true false = Ordering.gt := rfl
  have h3 : compare false false = Ordering.eq := rfl
  have h4 : compare true true = Ordering.eq := rfl
  have t1 : ∀ x : Ordering, Ordering.lt.then x = Ordering.lt := fun x => rfl
  have t2 : ∀ x : Ordering, Ordering.gt.then x = Ordering.gt := fun x => rfl
  have t3 : ∀ x : Ordering, Ordering.eq.then x = x := fun x => rfl
  have n1 : (Ordering.lt != Ordering.gt) = true := rfl
  have n2 : (Ordering.eq != Ordering.gt) = true := rfl
  have n3 : (Ordering.gt != Ordering.gt) = false := rfl
  unfold SimpleDictionary.fuzzyLe SimpleDictionary.fuzzyCmp fuzzyKey
  rcases Nat.lt_trichotomy a.edit_distance b.edit_distance with h | h | h
  · rw [Nat.compare_eq_lt.mpr h, t1, n1]
    cases ha : a.is_common <;> cases hb : b.is_common <;>
      simp [ha, hb] <;> omega
  · rw [Nat.compare_eq_eq.mpr h, t3]
    cases ha : a.is_common <;> cases hb : b.is_common <;>
      simp [ha, hb, h1, h2, h3, h4, n1, n2, n3, h] <;> omega
  · rw [Nat.compare_eq_gt.mpr h, t2, n3]
    cases ha : a.is_common <;> cases hb : b.is_common <;>
      simp [ha, hb] <;> omega


theorem fuzzyLe_trans (a b c : FuzzyMatchResult)
    (hab : SimpleDictionary.fuzzyLe a b) (hbc : SimpleDictionary.fuzzyLe b c) :
    SimpleDictionary.fuzzyLe a c := by
  rw [fuzzyLe_iff] at *
  omega

theorem fuzzyLe_total (a b : FuzzyMatchResult) :
    SimpleDictionary.fuzzyLe a b || SimpleDictionary.fuzzyLe b a := by
  rw [Bool.or_eq_true, fuzzyLe_iff, fuzzyLe_iff]
  omega

theorem fuzzyLe_imp {a b : FuzzyMatchResult} (h : SimpleDictionary.fuzzyLe a b = true) :
    a.edit_distance < b.edit_distance ∨
      (a.edit_distance = b.edit_distance ∧ (b.is_common = true → a.is_common = true)) := by
  rw [fuzzyLe_iff] at h
  unfold fuzzyKey at h
  cases ha : a.is_common <;> cases hb : b.is_common <;>
    rw [ha, hb] at h <;> simp [ha, hb] <;> simp at h <;> omega

theorem mem_fuzzyCandidates {d : SimpleDictionary} {query : List Char}
    {max_edit_distance : Nat} {m : FuzzyMatchResult}
    (h : m ∈ d.fuzzyCandidates query max_edit_distance) :
    m.edit_distance = levenshtein_distance query m.word ∧
      m.edit_distance ≤ max_edit_distance ∧ (m.word, m.is_common) ∈ d.words := by
  simp only [SimpleDictionary.fuzzyCandidates, List.mem_filterMap] at h
  obtain ⟨w, hw, hf⟩ := h
  split at hf
  · rename_i hd
    rw [Option.some.injEq] at hf
    subst hf
    exact ⟨rfl, hd, hw⟩
  · exact absurd hf (by simp)

/-- Entries in the same (distance, commonality) class compare `fuzzyLe`. -/
theorem fuzzyLe_of_same_key {dv : Nat} {cv : Bool} {a b : FuzzyMatchResult}
    (ha : (a.edit_distance == dv && a.is_common == cv) = true)
    (hb : (b.edit_distance == dv && b.is_common == cv) = true) :
    SimpleDictionary.fuzzyLe a b = true := by
  rw [Bool.and_eq_true, beq_iff_eq, beq_iff_eq] at ha hb
  rw [fuzzyLe_iff]
  unfold fuzzyKey
  rw [ha.1, ha.2, hb.1, hb.2]

/-- C4: `fuzzy_match` returns only store entries within the distance bound,
tagged with their exact edit distance; the output is sorted by distance
ascending with ties broken by commonality descending; within one
(distance, commonality) class the output preserves the store's iteration
order (it is a sublist of the filtered scan `fuzzyCandidates`); and the
result is truncated to at most `max_results` entries after sorting. -/
theorem fuzzy_match_spec (d : SimpleDictionary) (query : List Char)
    (max_edit_distance max_results : Nat) :
    (∀ m ∈ d.fuzzy_match query max_edit_distance max_results,
        m.edit_distance = levenshtein_distance query m.word ∧
        m.edit_distance ≤ max_edit_distance ∧ (m.word, m.is_common) ∈ d.words) ∧
    (d.fuzzy_match query max_edit_distance max_results).Pairwise (fun a b =>
        a.edit_distance < b.edit_distance ∨
        (a.edit_distance = b.edit_distance ∧ (b.is_common = true → a.is_common = true))) ∧
    (∀ (dv : Nat) (cv : Bool),
        List.Sublist
          ((d.fuzzy_match query max_edit_distance max_results).filter
            (fun m => m.edit_distance == dv && m.is_common == cv))
          ((d.fuzzyCandidates query max_edit_distance).filter
            (fun m => m.edit_distance == dv && m.is_common == cv))) ∧
    (d.fuzzy_match query max_edit_distance max_results).length ≤ max_results := by
  have htake : List.Sublist (d.fuzzy_match query max_edit_distance max_results)
      ((d.fuzzyCandidates query max_edit_distance).mergeSort SimpleDictionary.fuzzyLe) :=
    List.take_sublist _ _
  have hperm : List.Perm
      ((d.fuzzyCandidates query max_edit_distance).mergeSort SimpleDictionary.fuzzyLe)
      (d.fuzzyCandidates query max_edit_distance) :=
    List.mergeSort_perm _ _
  refine ⟨?_, ?_, ?_, ?_⟩
  · intro m hm
    exact mem_fuzzyCandidates (hperm.subset (htake.subset hm))
  · have hs := List.sorted_mergeSort fuzzyLe_trans fuzzyLe_total
      (d.fuzzyCandidates query max_edit_distance)
    exact ((hs.sublist htake).imp fun hab => fuzzyLe_imp hab)
  · intro dv cv
    set cands := d.fuzzyCandidates query max_edit_distance with hcands
    set pk : FuzzyMatchResult → Bool :=
      fun m => m.edit_distance == dv && m.is_common == cv with hpk
    have hXsub : List.Sublist (cands.filter pk) cands := List.filter_sublist _
    have hXpair : (cands.filter pk).Pairwise
        (fun a b => SimpleDictionary.fuzzyLe a b = true) := by
      refine List.pairwise_of_forall_mem_list fun a haX b hbX => ?_
      rw [List.mem_filter] at haX hbX
      exact fuzzyLe_of_same_key haX.2 hbX.2
    have hXms : List.Sublist (cands.filter pk)
        (cands.mergeSort SimpleDictionary.fuzzyLe) :=
      List.sublist_mergeSort fuzzyLe_trans fuzzyLe_total hXpair hXsub
    have hX2 : List.Sublist (cands.filter pk)
        ((cands.mergeSort SimpleDictionary.fuzzyLe).filter pk) := by
      have h5 := hXms.filter pk
      rwa [List.filter_eq_self.mpr (fun a ha => (List.mem_filter.mp ha).2)] at h5
    have hMX : List.Perm ((cands.mergeSort SimpleDictionary.fuzzyLe).filter pk)
        (cands.filter pk) :=
      hperm.filter pk
    have heq : cands.filter pk = (cands.mergeSort SimpleDictionary.fuzzyLe).filter pk :=
      hX2.eq_of_length hMX.length_eq.symm
    rw [heq]
    exact htake.filter pk
  · exact List.length_take_le _ _


theorem fuzzy_match_spec_witness :
    ((⟨[(['a'], false), (['b'], true)], none⟩ : SimpleDictionary).fuzzy_match
        ['a'] 1 5).length ≤ 5 ∧
    levenshtein_distance ['a'] ['b'] ≤ 1 := by
  have h := fuzzy_match_spec ⟨[(['a'], false), (['b'], true)], none⟩ ['a'] 1 5
  have hc : (⟨[(['a'], false), (['b'], true)], none⟩ : SimpleDictionary).fuzzyCandidates
      ['a'] 1 = [⟨['a'], 0, false⟩, ⟨['b'], 1, true⟩] := by decide
  have hm : (⟨['b'], 1, true⟩ : FuzzyMatchResult) ∈
      (⟨[(['a'], false), (['b'], true)], none⟩ : SimpleDictionary).fuzzy_match ['a'] 1 5 := by
    unfold SimpleDictionary.fuzzy_match
    rw [hc, List.mergeSort_of_sorted (by decide)]
    decide
  have h2 := h.1 ⟨['b'], 1, true⟩ hm
  exact ⟨h.2.2.2, h2.1 ▸ h2.2.1⟩

end PolskiLs
